import Mathlib

/-!
# Verification of the sanhedrin ensemble-size core

Shallow embedding of the core modules of the repository
(`sanhedrin.core.diversity`, `sanhedrin.core.collusion_risk`,
`sanhedrin.core.optimizer`, `sanhedrin.core.bootstrap`, and
`sanhedrin.bio.variant_calling.ensemble`) over exact real arithmetic,
together with proofs of the behavioural properties of those modules.

Python floats are modelled by `ℝ`, python ints by `ℤ`/`ℕ`, numpy arrays by
`List ℝ` or `Matrix (Fin n) (Fin n) ℝ`, and python sets by `Finset ℕ`.
External randomness (numpy's global RNG) and external optional libraries
(`arch`) are modelled as explicit oracle parameters.
-/

namespace Sanhedrin

/-- Abstraction of a `networkx` undirected graph as consumed by this code:
the core functions read only its edge count (`G.number_of_edges()`) and its
average clustering coefficient (`nx.average_clustering(G)`).  The average
clustering coefficient of an undirected graph is an average of per-node
coefficients each lying in `[0,1]`, hence the bundled bounds; the
`try/except` in `f_topology` maps a failing clustering computation to `0`,
which also satisfies the bounds. -/
structure NXGraph where
  numEdges : ℕ
  clustering : ℝ
  clustering_nonneg : 0 ≤ clustering
  clustering_le_one : clustering ≤ 1

/-- The fields of `sanhedrin.core.config.SimConfig` that are read by the
core diversity / collusion-risk / optimizer functions, with their default
values from `config.py`.  The remaining fields of the dataclass are never
read by the functions verified here and are omitted. -/
structure SimConfig where
  M_max : ℕ := 15
  M_min : ℕ := 3
  alpha_edge : ℝ := 0.7
  alpha_clust : ℝ := 0.3
  delta_crit : ℝ := 0.6
  T_stab : ℝ := 5.0
  S_min : ℝ := 0.2
  gamma_stakes : ℝ := 1.5
  c_inf : ℝ := 1.0
  c_synth : ℝ := 0.5
  mu_cost : ℝ := 0.05
  nu_trust : ℝ := 0.1
  sigma_trust : ℝ := 3.0
  lambda_coll : ℝ := 1.0

/-- `diversity.topology_discount(G, M)`. -/
noncomputable def topology_discount (G : NXGraph) (M : ℤ) : ℝ :=
  if M ≤ 1 then 1.0
  else
    let max_edges : ℝ := (M : ℝ) * ((M : ℝ) - 1) / 2
    let density : ℝ := if max_edges > 0 then (G.numEdges : ℝ) / max_edges else 0.0
    max 0.01 (1.0 - density)

/-- `diversity.effective_diversity(M, rho_bar, G)`; `G = none` models the
python default `G=None`. -/
noncomputable def effective_diversity (M : ℤ) (rho_bar : ℝ) (G : Option NXGraph) : ℝ :=
  let phi : ℝ := match G with
    | some g => topology_discount g M
    | none => 1.0
  max 0.01 ((M : ℝ) * (1.0 - rho_bar) * phi)

/-- `diversity.effective_diversity_from_correlation(Sigma, G)`; the matrix
dimension `n` is `Sigma.shape[0]` and `np.sum(Sigma)` is the sum of all
entries. -/
noncomputable def effective_diversity_from_correlation {n : ℕ}
    (Sigma : Matrix (Fin n) (Fin n) ℝ) (G : Option NXGraph) : ℝ :=
  let total_corr : ℝ := ∑ i, ∑ j, Sigma i j
  if total_corr < 1e-12 then (n : ℝ)
  else
    let D : ℝ := (n : ℝ) ^ 2 / total_corr
    let phi : ℝ := match G with
      | some g => topology_discount g (n : ℤ)
      | none => 1.0
    max 0.01 (D * phi)

/-- `collusion_risk.f_topology(G, M, cfg)`. -/
noncomputable def f_topology (G : NXGraph) (M : ℤ) (cfg : SimConfig) : ℝ :=
  if M ≤ 1 then 0.0
  else
    let max_edges : ℝ := (M : ℝ) * ((M : ℝ) - 1) / 2
    let edge_density : ℝ := if max_edges > 0 then (G.numEdges : ℝ) / max_edges else 0.0
    min 1.0 (cfg.alpha_edge * edge_density + cfg.alpha_clust * G.clustering)

/-- `collusion_risk.f_repetition(T, delta, cfg)`; rounds `T` is a natural
number. -/
noncomputable def f_repetition (T : ℕ) (delta : ℝ) (cfg : SimConfig) : ℝ :=
  if delta < cfg.delta_crit then 0.0
  else
    let g_delta : ℝ := ((delta - cfg.delta_crit) / (1.0 - cfg.delta_crit)) ^ 2
    let h_T : ℝ := 1.0 - Real.exp (-(T : ℝ) / cfg.T_stab)
    g_delta * h_T

/-- `collusion_risk.f_stakes(S, cfg)`; `**` with a float exponent is real
exponentiation `Real.rpow`. -/
noncomputable def f_stakes (S : ℝ) (cfg : SimConfig) : ℝ :=
  if S < cfg.S_min then 0.0
  else (S - cfg.S_min) ^ cfg.gamma_stakes

/-- `collusion_risk.compute_collusion_risk(M, G, T, delta, S, cfg)`. -/
noncomputable def compute_collusion_risk (M : ℤ) (G : NXGraph) (T : ℕ)
    (delta S : ℝ) (cfg : SimConfig) : ℝ :=
  f_topology G M cfg * f_repetition T delta cfg * f_stakes S cfg

/-- `collusion_risk.percolation_threshold(M)`. -/
noncomputable def percolation_threshold (M : ℤ) : ℝ :=
  1.0 / (max (M - 1) 1 : ℤ)

/-- Python `int(x)` on a float: truncation toward zero. -/
noncomputable def pyInt (x : ℝ) : ℤ :=
  if 0 ≤ x then ⌊x⌋ else -⌊-x⌋

/-- `optimizer.L_error(M, sigma2, rho_bar, G)`. -/
noncomputable def L_error (M : ℤ) (sigma2 rho_bar : ℝ) (G : NXGraph) : ℝ :=
  sigma2 / effective_diversity M rho_bar (some G)

/-- `optimizer.L_cost(M, cfg)`. -/
noncomputable def L_cost (M : ℤ) (cfg : SimConfig) : ℝ :=
  cfg.mu_cost * ((M : ℝ) * cfg.c_inf + cfg.c_synth * (M : ℝ) * Real.log ((M : ℝ) + 1))

/-- `optimizer.L_trust(M, M_target, cfg)`. -/
noncomputable def L_trust (M M_target : ℤ) (cfg : SimConfig) : ℝ :=
  cfg.nu_trust * Real.exp (-(((M : ℝ) - (M_target : ℝ)) ^ 2) / (2 * cfg.sigma_trust ^ 2))

/-- `optimizer.L_coll(M, G, T, delta, S, cfg)`. -/
noncomputable def L_coll (M : ℤ) (G : NXGraph) (T : ℕ) (delta S : ℝ) (cfg : SimConfig) : ℝ :=
  cfg.lambda_coll * compute_collusion_risk M G T delta S cfg

/-- The `M_target` expression inside `optimizer.optimize_ensemble_size`:
`cfg.M_min + int(4*E/(1 - rho_bar + 0.01)) + int(4*S*(1+E))`. -/
noncomputable def M_target_calc (E S rho_bar : ℝ) (cfg : SimConfig) : ℤ :=
  (cfg.M_min : ℤ) + pyInt (4 * E / (1 - rho_bar + 0.01)) + pyInt (4 * S * (1 + E))

/-- The loss evaluated for one candidate `M` in the body of the search loop
of `optimizer.optimize_ensemble_size`; `gen` models the external graph
source `nx.erdos_renyi_graph(M, min(p, 0.99), seed=42)` as an oracle from
`(M, edge probability)` to a graph. -/
noncomputable def total_loss (gen : ℕ → ℝ → NXGraph) (E S rho_bar p : ℝ) (T : ℕ)
    (delta : ℝ) (cfg : SimConfig) (sigma2 : ℝ) (M : ℕ) : ℝ :=
  let G := gen M (min p 0.99)
  let M_target := M_target_calc E S rho_bar cfg
  L_error (M : ℤ) sigma2 rho_bar G + L_cost (M : ℤ) cfg
    - L_trust (M : ℤ) M_target cfg + L_coll (M : ℤ) G T delta S cfg

open Classical in
/-- The `for M in range(...)` argmin loop of `optimize_ensemble_size`.
The accumulator is `(best_M, best_loss)`; `none` models the initial
`best_loss = float(\x7binf\x7d)`, smaller than every subsequently computed
real loss. -/
noncomputable def argminLoop (loss : ℕ → ℝ) : List ℕ → ℕ × Option ℝ → ℕ × Option ℝ
  | [], acc => acc
  | M :: rest, acc =>
    match acc.2 with
    | none => argminLoop loss rest (M, some (loss M))
    | some b =>
      if loss M < b then argminLoop loss rest (M, some (loss M))
      else argminLoop loss rest acc

/-- `optimizer.optimize_ensemble_size(E, S, rho_bar, p, T, delta, cfg,
sigma2, enforce_odd)`, with the external random-graph source `gen` passed
explicitly.  `range(cfg.M_min, cfg.M_max + 1)` is
`List.range' cfg.M_min (cfg.M_max + 1 - cfg.M_min)`. -/
noncomputable def optimize_ensemble_size (gen : ℕ → ℝ → NXGraph)
    (E S rho_bar p : ℝ) (T : ℕ) (delta : ℝ) (cfg : SimConfig) (sigma2 : ℝ)
    (enforce_odd : Bool) : ℕ :=
  let loss := total_loss gen E S rho_bar p T delta cfg sigma2
  let Ms := List.range' cfg.M_min (cfg.M_max + 1 - cfg.M_min)
  let best_M := (argminLoop loss Ms (cfg.M_min, none)).1
  if enforce_odd && best_M % 2 == 0 then min (best_M + 1) cfg.M_max else best_M

/-- `np.mean` of a 1-d array. -/
noncomputable def mean (xs : List ℝ) : ℝ := xs.sum / xs.length

/-- `np.var` of a 1-d array (population variance). -/
noncomputable def variance (xs : List ℝ) : ℝ :=
  mean (xs.map fun x => (x - mean xs) ^ 2)

/-- `np.round(x)`: round half to even. -/
noncomputable def npRound (x : ℝ) : ℤ :=
  if x - ⌊x⌋ = 1 / 2 then (if Even ⌊x⌋ then ⌊x⌋ else ⌊x⌋ + 1) else round x

/-- `bootstrap.optimal_block_length(series)`.  The optional third-party
`arch` block-length procedure is modelled as an oracle `arch : Option ℝ`:
`some b_cb` is a successful call returning the circular block length
`b_cb`, and `none` covers both `HAS_ARCH == False` and the `except` branch
(any failure of the procedure).  Python `T // 3` is integer floor
division and `int(T ** (1/3))` truncates the real cube root. -/
noncomputable def optimal_block_length (series : List ℝ) (arch : Option ℝ) : ℤ :=
  let T := series.length
  if T < 10 then max 1 ((T : ℤ) / 3)
  else
    match arch with
    | some b_cb => max 1 (npRound b_cb)
    | none => max 1 (pyInt ((T : ℝ) ^ ((1 : ℝ) / 3)))

/-- One wrapped block of `bl` consecutive entries of `series` starting at
`s`: `series[np.arange(s, s + bl) % T]`. -/
noncomputable def blockSample (series : List ℝ) (s bl : ℕ) : List ℝ :=
  (List.range bl).map fun k => series.getD ((s + k) % series.length) 0

/-- `bootstrap.circular_block_bootstrap(series, block_length, n_bootstrap,
statistic)`.  The ambient numpy RNG is modelled by the oracle `starts`,
where `starts i b` is the `b`-th random start index drawn in bootstrap
iteration `i` (the code draws starts in `[0, T)`; the model reduces any
start modulo `T` exactly as the indexing `% T` in the code does).
`n_blocks = ceil(T / bl)` equals `(T + bl - 1) / bl` in `ℕ` for `bl > 0`. -/
noncomputable def circular_block_bootstrap (series : List ℝ) (block_length n_bootstrap : ℕ)
    (starts : ℕ → ℕ → ℕ) (statistic : String) : List ℝ :=
  let T := series.length
  let bl := min block_length T
  let n_blocks := (T + bl - 1) / bl
  (List.range n_bootstrap).map fun i =>
    let sample := ((List.range n_blocks).map fun b => blockSample series (starts i b) bl).flatten.take T
    if statistic = "mean" then mean sample else variance sample

/-- The bootstrap null distribution built inside
`bootstrap.bootstrap_one_sided_test`: block length from
`optimal_block_length`, series re-centered to `null_value`, then a
circular block bootstrap of the mean. -/
noncomputable def bootDist (series : List ℝ) (null_value : ℝ) (n_bootstrap : ℕ)
    (arch : Option ℝ) (starts : ℕ → ℕ → ℕ) : List ℝ :=
  let bl := (optimal_block_length series arch).toNat
  let centered := series.map fun x => x - mean series + null_value
  circular_block_bootstrap centered bl n_bootstrap starts "mean"

/-- `bootstrap.bootstrap_one_sided_test(observed_stat, series, null_value,
n_bootstrap, alpha)`, returning `(reject_null, p_value)`;
`np.mean(boot_dist >= observed_stat)` is the mean of the 0/1 indicator of
`observed_stat ≤ x` over the bootstrap distribution. -/
noncomputable def bootstrap_one_sided_test (observed_stat : ℝ) (series : List ℝ)
    (null_value : ℝ) (n_bootstrap : ℕ) (alpha : ℝ)
    (arch : Option ℝ) (starts : ℕ → ℕ → ℕ) : Prop × ℝ :=
  let boot_dist := bootDist series null_value n_bootstrap arch starts
  let p_value := (boot_dist.map fun x => if observed_stat ≤ x then (1 : ℝ) else 0).sum
    / boot_dist.length
  (p_value < alpha, p_value)

/-- The per-variant counting loop of `ensemble.majority_vote`: the number
of callers whose call set contains `v`.  A python dict has distinct keys,
so `call_sets.values()` is modelled directly as the list of call sets. -/
def count_calls (sets : List (Finset ℕ)) (v : ℕ) : ℕ :=
  (sets.filter fun s => v ∈ s).length

/-- The default threshold `(M + 1) // 2 = ceil(M / 2)` of
`ensemble.majority_vote`. -/
def default_threshold (sets : List (Finset ℕ)) : ℕ := (sets.length + 1) / 2

/-- `ensemble.union_vote(call_sets)`. -/
def union_vote (sets : List (Finset ℕ)) : Finset ℕ := sets.foldl (· ∪ ·) ∅

/-- `ensemble.majority_vote(call_sets, threshold)`: the `counts` dict ranges
over exactly the variants appearing in some call set, i.e. the union. -/
def majority_vote (sets : List (Finset ℕ)) (threshold : ℕ) : Finset ℕ :=
  (union_vote sets).filter fun v => threshold ≤ count_calls sets v

/-- `ensemble.intersection_vote(call_sets)`. -/
def intersection_vote (sets : List (Finset ℕ)) : Finset ℕ :=
  match sets with
  | [] => ∅
  | s :: rest => rest.foldl (· ∩ ·) s

/-- The family index of position `i` under the block structure laid down by
the `for size in family_sizes` loop of
`diversity.build_block_correlation_matrix`. -/
def groupOf (sizes : List ℕ) (i : ℕ) : ℕ :=
  match sizes with
  | [] => 0
  | s :: rest => if i < s then 0 else groupOf rest (i - s) + 1

/-- The matrix built by `build_block_correlation_matrix` before the PSD
projection: filled with `rho_between`, each family's diagonal block
overwritten with `rho_within`, diagonal set to `1`. -/
noncomputable def naive_block_matrix (sizes : List ℕ) (rho_within rho_between : ℝ) :
    Matrix (Fin sizes.sum) (Fin sizes.sum) ℝ :=
  Matrix.of fun i j =>
    if i = j then 1
    else if groupOf sizes (i : ℕ) = groupOf sizes (j : ℕ) then rho_within
    else rho_between

open Classical in
/-- The eigenvalue-clipping PSD projection performed at the end of
`build_block_correlation_matrix`.  `np.linalg.eigh(Sigma)` on the (by
construction symmetric) matrix is modelled by the spectral decomposition
of a Hermitian real matrix: orthogonal `U` with `A = U * diagonal eigvals
* Uᵀ`.  Eigenvalues are clipped to at least `1e-6`, the matrix is
reconstructed, rescaled by the outer product of the square roots of its
diagonal, and its diagonal is forced to exactly `1`.  The `else` branch is
unreachable for the symmetric input built above. -/
noncomputable def psd_project {n : ℕ} (A : Matrix (Fin n) (Fin n) ℝ) :
    Matrix (Fin n) (Fin n) ℝ :=
  if hA : A.IsHermitian then
    let lam : Fin n → ℝ := fun i => max (hA.eigenvalues i) 1e-6
    let U : Matrix (Fin n) (Fin n) ℝ := hA.eigenvectorUnitary
    let B : Matrix (Fin n) (Fin n) ℝ := U * Matrix.diagonal lam * star U
    let d : Fin n → ℝ := fun i => Real.sqrt (B i i)
    Matrix.of fun i j => if i = j then 1 else B i j / (d i * d j)
  else A

/-- `diversity.build_block_correlation_matrix(family_sizes, rho_within,
rho_between)`; the matrix dimension is `N = sum(family_sizes)`. -/
noncomputable def build_block_correlation_matrix (family_sizes : List ℕ)
    (rho_within rho_between : ℝ) :
    Matrix (Fin family_sizes.sum) (Fin family_sizes.sum) ℝ :=
  psd_project (naive_block_matrix family_sizes rho_within rho_between)

/-! ## Lemmas and claim theorems -/

/-- For `1 < M` the denominator `M * (M - 1) / 2` is positive. -/
theorem max_edges_pos {M : ℤ} (h : 1 < M) : 0 < (M : ℝ) * ((M : ℝ) - 1) / 2 := by
  have h2 : (1 : ℝ) < (M : ℝ) := by exact_mod_cast h
  have : 0 < (M : ℝ) * ((M : ℝ) - 1) := by nlinarith
  linarith

/-- For `1< M`, `topology_discount` is the floored density formula. -/
theorem topology_discount_eq {G : NXGraph} {M : ℤ} (h : 1 < M) :
    topology_discount G M
      = max 0.01 (1 - (G.numEdges : ℝ) / ((M : ℝ) * ((M : ℝ) - 1) / 2)) := by
  have hme := max_edges_pos h
  simp only [topology_discount, if_neg (not_le.mpr h), if_pos hme]
  norm_num

/-- C2: `compute_collusion_risk(M, G, T, delta, S, cfg) = 0` whenever
`delta < cfg.delta_crit`, or `S < cfg.S_min`, or `M ≤ 1`; each of the three
conditions is independently sufficient. -/
theorem compute_collusion_risk_zero (M : ℤ) (G : NXGraph) (T : ℕ) (delta S : ℝ)
    (cfg : SimConfig) (h : delta < cfg.delta_crit ∨ S < cfg.S_min ∨ M ≤ 1) :
    compute_collusion_risk M G T delta S cfg = 0 := by
  unfold compute_collusion_risk
  rcases h with h | h | h
  · unfold f_repetition
    rw [if_pos h]
    ring_nf
  · unfold f_stakes
    rw [if_pos h]
    ring_nf
  · unfold f_topology
    rw [if_pos h]
    ring_nf

/-- Witness for C2 at a concrete input (`delta = 0.5 < 0.6 = delta_crit`). -/
theorem compute_collusion_risk_zero_witness :
    compute_collusion_risk 5 ⟨0, 0, le_refl 0, by norm_num⟩ 3 0.5 1 {} = 0 :=
  compute_collusion_risk_zero 5 _ 3 0.5 1 {} (Or.inl (by norm_num))

/-- C4 counterexample: at `M = 2`, `rho_bar = 0.999 ∈ [0,1)` the `0.01`
floor engages, so `effective_diversity` is `0.01`, not
`M * (1 - rho_bar) = 0.002` as the claim states. -/
theorem effective_diversity_scalar_counterexample :
    ¬ (effective_diversity 2 0.999 none = (2 : ℝ) * (1 - 0.999)) := by
  unfold effective_diversity
  norm_num [max_def]

/-- C4 (amended): for `M ∈ [2,50]` and `rho_bar ∈ [0,1)`,
`effective_diversity(M, rho_bar, None)` equals
`max 0.01 (M * (1 - rho_bar))` — hence equals `M * (1 - rho_bar)` whenever
that product is at least the `0.01` floor — and is non-increasing in
`rho_bar` for fixed `M`. -/
theorem effective_diversity_scalar_spec (M : ℤ) (rho1 rho2 : ℝ)
    (hM2 : 2 ≤ M) (hM50 : M ≤ 50) (h0 : 0 ≤ rho1) (h12 : rho1 ≤ rho2) (h1 : rho2 < 1) :
    effective_diversity M rho1 none = max 0.01 ((M : ℝ) * (1 - rho1)) ∧
    (0.01 ≤ (M : ℝ) * (1 - rho1) → effective_diversity M rho1 none = (M : ℝ) * (1 - rho1)) ∧
    effective_diversity M rho2 none ≤ effective_diversity M rho1 none := by
  have hform : ∀ r : ℝ, effective_diversity M r none = max 0.01 ((M : ℝ) * (1 - r)) := by
    intro r
    unfold effective_diversity
    norm_num
  have hMR : (0 : ℝ) ≤ (M : ℝ) := by exact_mod_cast le_trans (by norm_num) hM2
  refine ⟨hform rho1, ?_, ?_⟩
  · intro hfloor
    rw [hform rho1]
    exact max_eq_right hfloor
  · rw [hform rho1, hform rho2]
    have : (M : ℝ) * (1 - rho2) ≤ (M : ℝ) * (1 - rho1) :=
      mul_le_mul_of_nonneg_left (by linarith) hMR
    exact max_le_max le_rfl this

/-- Witness for C4 (amended) at `M = 3`, `rho1 = 0`, `rho2 = 1/2`. -/
theorem effective_diversity_scalar_spec_witness :
    effective_diversity 3 0 none = max 0.01 ((3 : ℝ) * (1 - 0)) ∧
    (0.01 ≤ (3 : ℝ) * (1 - 0) → effective_diversity 3 0 none = (3 : ℝ) * (1 - 0)) ∧
    effective_diversity 3 (1 / 2) none ≤ effective_diversity 3 0 none := by
  have h := effective_diversity_scalar_spec 3 0 (1 / 2)
    (by norm_num) (by norm_num) (by norm_num) (by norm_num) (by norm_num)
  exact_mod_cast h

/-- C5 counterexample: on the degenerate `0 × 0` correlation matrix the
total sum is `0 < 1e-12`, so `effective_diversity_from_correlation`
returns `M = 0`, which is below the claimed `0.01` floor. -/
theorem effective_diversity_from_correlation_counterexample :
    effective_diversity_from_correlation (0 : Matrix (Fin 0) (Fin 0) ℝ) none < 0.01 := by
  unfold effective_diversity_from_correlation
  norm_num

/-- C5 (amended): `effective_diversity` is at least `0.01` for every input,
and `effective_diversity_from_correlation` is at least `0.01` for every
correlation matrix with at least one row (the `0 × 0` matrix instead
yields `0`), including the degenerate case of numerically-zero total
correlation, where it returns `n ≥ 1`. -/
theorem effective_diversity_floor {n : ℕ} (hn : 1 ≤ n) (M : ℤ) (rho_bar : ℝ)
    (G G' : Option NXGraph) (Sigma : Matrix (Fin n) (Fin n) ℝ) :
    0.01 ≤ effective_diversity M rho_bar G ∧
    0.01 ≤ effective_diversity_from_correlation Sigma G' := by
  constructor
  · unfold effective_diversity
    exact le_max_left _ _
  · simp only [effective_diversity_from_correlation]
    split_ifs with h
    · have hn1 : (1 : ℝ) ≤ (n : ℝ) := by exact_mod_cast hn
      linarith
    · exact le_max_left _ _

/-- Witness for C5 (amended) at the `1 × 1` identity matrix. -/
theorem effective_diversity_floor_witness :
    0.01 ≤ effective_diversity 2 0.5 none ∧
    0.01 ≤ effective_diversity_from_correlation (1 : Matrix (Fin 1) (Fin 1) ℝ) none :=
  effective_diversity_floor (by norm_num) 2 0.5 none none 1

/-- C7: `topology_discount(G, M)` is `1.0` for `M ≤ 1`; for `M > 1` it
equals `max 0.01 (1 - |E| / (M*(M-1)/2))`, never drops below the `0.01`
floor, is non-increasing in the edge count, and is strictly decreasing in
the edge count as long as the value at the sparser graph is still above
the floor. -/
theorem topology_discount_spec (G G1 G2 : NXGraph) (M : ℤ) :
    (M ≤ 1 → topology_discount G M = 1.0) ∧
    (1 < M → topology_discount G M
      = max 0.01 (1 - (G.numEdges : ℝ) / ((M : ℝ) * ((M : ℝ) - 1) / 2))) ∧
    0.01 ≤ topology_discount G M ∧
    (1 < M → G1.numEdges ≤ G2.numEdges →
      topology_discount G2 M ≤ topology_discount G1 M) ∧
    (1 < M → G1.numEdges < G2.numEdges → 0.01 < topology_discount G1 M →
      topology_discount G2 M < topology_discount G1 M) := by
  refine ⟨fun h => by simp only [topology_discount, if_pos h], fun h => topology_discount_eq h,
    ?_, ?_, ?_⟩
  · by_cases h : M ≤ 1
    · simp only [topology_discount, if_pos h]
      norm_num
    · rw [topology_discount_eq (not_le.mp h)]
      exact le_max_left _ _
  · intro hM hE
    have hme := max_edges_pos hM
    rw [topology_discount_eq hM, topology_discount_eq hM]
    have hcast : (G1.numEdges : ℝ) ≤ (G2.numEdges : ℝ) := by exact_mod_cast hE
    have : (G1.numEdges : ℝ) / ((M : ℝ) * ((M : ℝ) - 1) / 2)
        ≤ (G2.numEdges : ℝ) / ((M : ℝ) * ((M : ℝ) - 1) / 2) :=
      (div_le_div_right hme).mpr hcast
    exact max_le_max le_rfl (by linarith)
  · intro hM hE h01
    have hme := max_edges_pos hM
    rw [topology_discount_eq hM] at h01 ⊢
    rw [topology_discount_eq hM]
    have hcast : (G1.numEdges : ℝ) < (G2.numEdges : ℝ) := by exact_mod_cast hE
    have hdiv : (G1.numEdges : ℝ) / ((M : ℝ) * ((M : ℝ) - 1) / 2)
        < (G2.numEdges : ℝ) / ((M : ℝ) * ((M : ℝ) - 1) / 2) :=
      (div_lt_div_right hme).mpr hcast
    have h1 : (0.01 : ℝ) < 1 - (G1.numEdges : ℝ) / ((M : ℝ) * ((M : ℝ) - 1) / 2) := by
      rcases lt_max_iff.mp h01 with h | h
      · exact absurd h (lt_irrefl _)
      · exact h
    have hmr : (1 - (G1.numEdges : ℝ) / ((M : ℝ) * ((M : ℝ) - 1) / 2))
        ≤ max 0.01 (1 - (G1.numEdges : ℝ) / ((M : ℝ) * ((M : ℝ) - 1) / 2)) := le_max_right _ _
    apply max_lt (by linarith) (by linarith)

/-- Witness for C7 at `M = 3`, graphs with `0 ≤ 1` and `0 < 1` edges. -/
theorem topology_discount_spec_witness :
    ((3 : ℤ) ≤ 1 → topology_discount ⟨2, 0, le_refl 0, by norm_num⟩ 3 = 1.0) ∧
    (1 < (3 : ℤ) → topology_discount ⟨2, 0, le_refl 0, by norm_num⟩ 3
      = max 0.01 (1 - ((2 : ℕ) : ℝ) / (((3 : ℤ) : ℝ) * (((3 : ℤ) : ℝ) - 1) / 2))) ∧
    0.01 ≤ topology_discount ⟨2, 0, le_refl 0, by norm_num⟩ 3 ∧
    (1 < (3 : ℤ) → (0 : ℕ) ≤ 1 →
      topology_discount ⟨1, 0, le_refl 0, by norm_num⟩ 3
        ≤ topology_discount ⟨0, 0, le_refl 0, by norm_num⟩ 3) ∧
    (1 < (3 : ℤ) → (0 : ℕ) < 1 → 0.01 < topology_discount ⟨0, 0, le_refl 0, by norm_num⟩ 3 →
      topology_discount ⟨1, 0, le_refl 0, by norm_num⟩ 3
        < topology_discount ⟨0, 0, le_refl 0, by norm_num⟩ 3) :=
  topology_discount_spec ⟨2, 0, le_refl 0, by norm_num⟩ ⟨0, 0, le_refl 0, by norm_num⟩
    ⟨1, 0, le_refl 0, by norm_num⟩ 3

/-- C9: `optimal_block_length` always returns a positive integer (and, the
embedding being total, never raises); for a series shorter than 10
observations it returns `max 1 (length // 3)`; and whenever the automatic
`arch` procedure is unavailable or fails (`arch = none`) it falls back to
`max 1 (int(length ** (1/3)))`. -/
theorem optimal_block_length_spec (series : List ℝ) (arch : Option ℝ) :
    1 ≤ optimal_block_length series arch ∧
    (series.length < 10 →
      optimal_block_length series arch = max 1 ((series.length : ℤ) / 3)) ∧
    (10 ≤ series.length → arch = none →
      optimal_block_length series arch
        = max 1 (pyInt ((series.length : ℝ) ^ ((1 : ℝ) / 3)))) := by
  simp only [optimal_block_length]
  refine ⟨?_, ?_, ?_⟩
  · split_ifs with h
    · exact le_max_left _ _
    · cases arch with
      | some b => exact le_max_left _ _
      | none => exact le_max_left _ _
  · intro h
    rw [if_pos h]
  · intro h harch
    rw [if_neg (not_lt.mpr h), harch]

/-- With nonnegative topology weights, `f_topology` lies in `[0,1]`. -/
theorem f_topology_mem (G : NXGraph) (M : ℤ) (cfg : SimConfig)
    (hae : 0 ≤ cfg.alpha_edge) (hac : 0 ≤ cfg.alpha_clust) :
    0 ≤ f_topology G M cfg ∧ f_topology G M cfg ≤ 1 := by
  unfold f_topology
  split_ifs with h
  · norm_num
  · have hd : (0 : ℝ) ≤ (if (M : ℝ) * ((M : ℝ) - 1) / 2 > 0
        then (G.numEdges : ℝ) / ((M : ℝ) * ((M : ℝ) - 1) / 2) else 0.0) := by
      split_ifs with hme
      · exact div_nonneg (Nat.cast_nonneg _) hme.le
      · norm_num
    have ht : (0 : ℝ) ≤ cfg.alpha_edge * (if (M : ℝ) * ((M : ℝ) - 1) / 2 > 0
        then (G.numEdges : ℝ) / ((M : ℝ) * ((M : ℝ) - 1) / 2) else 0.0)
        + cfg.alpha_clust * G.clustering :=
      add_nonneg (mul_nonneg hae hd) (mul_nonneg hac G.clustering_nonneg)
    constructor
    · exact le_min (by norm_num) ht
    · exact (min_le_left _ _).trans (by norm_num)

/-- With a positive stability constant and `delta ≤ 1`, `f_repetition`
lies in `[0,1]`. -/
theorem f_repetition_mem (T : ℕ) (delta : ℝ) (cfg : SimConfig)
    (hts : 0 < cfg.T_stab) (hdelta : delta ≤ 1) :
    0 ≤ f_repetition T delta cfg ∧ f_repetition T delta cfg ≤ 1 := by
  unfold f_repetition
  split_ifs with h
  · norm_num
  · have hcd : cfg.delta_crit ≤ delta := not_lt.mp h
    have hg0 : (0 : ℝ) ≤ ((delta - cfg.delta_crit) / (1.0 - cfg.delta_crit)) ^ 2 :=
      sq_nonneg _
    have hg1 : ((delta - cfg.delta_crit) / (1.0 - cfg.delta_crit)) ^ 2 ≤ 1 := by
      rcases eq_or_lt_of_le (by linarith : cfg.delta_crit ≤ (1 : ℝ)) with hc | hc
      · rw [show (1.0 : ℝ) - cfg.delta_crit = 0 by rw [hc]; norm_num, div_zero]
        norm_num
      · have hr0 : (0 : ℝ) ≤ (delta - cfg.delta_crit) / (1.0 - cfg.delta_crit) :=
          div_nonneg (by linarith) (by linarith)
        have hr1 : (delta - cfg.delta_crit) / (1.0 - cfg.delta_crit) ≤ 1 :=
          (div_le_one (by linarith)).mpr (by linarith)
        exact pow_le_one₀ hr0 hr1
    have hexp0 : (0 : ℝ) < Real.exp (-(T : ℝ) / cfg.T_stab) := Real.exp_pos _
    have hexp1 : Real.exp (-(T : ℝ) / cfg.T_stab) ≤ 1 := by
      rw [← Real.exp_zero]
      apply Real.exp_le_exp.mpr
      have : (0 : ℝ) ≤ (T : ℝ) / cfg.T_stab := div_nonneg (Nat.cast_nonneg _) hts.le
      rw [neg_div]
      linarith
    constructor
    · exact mul_nonneg hg0 (by linarith)
    · exact mul_le_one₀ hg1 (by linarith) (by linarith [hexp0])

/-- With a nonnegative exponent and `S ≤ S_min + 1`, `f_stakes` lies in
`[0,1]`. -/
theorem f_stakes_mem (S : ℝ) (cfg : SimConfig)
    (hgs : 0 ≤ cfg.gamma_stakes) (hS : S ≤ cfg.S_min + 1) :
    0 ≤ f_stakes S cfg ∧ f_stakes S cfg ≤ 1 := by
  unfold f_stakes
  split_ifs with h
  · norm_num
  · have hb0 : (0 : ℝ) ≤ S - cfg.S_min := by linarith [not_lt.mp h]
    exact ⟨Real.rpow_nonneg hb0 _, Real.rpow_le_one hb0 (by linarith) hgs⟩

/-- C6 counterexample: with the default configuration, `M = 2`, the
single-edge two-node graph, `T = 10` rounds, `delta = 1` and stakes
`S = 10`, the collusion risk is
`0.7 * (1 - exp(-2)) * 9.8 ^ 1.5 > 1`, outside the claimed `[0,1]`. -/
theorem compute_collusion_risk_counterexample :
    1 < compute_collusion_risk 2 ⟨1, 0, le_refl 0, by norm_num⟩ 10 1 10 {} := by
  have htopo : f_topology ⟨1, 0, le_refl 0, by norm_num⟩ 2 {} = 0.7 := by
    unfold f_topology
    norm_num
  have hrep : f_repetition 10 1 {} = 1 - Real.exp (-2) := by
    unfold f_repetition
    norm_num
  have hstakes : f_stakes 10 {} = (9.8 : ℝ) ^ (1.5 : ℝ) := by
    unfold f_stakes
    norm_num
  unfold compute_collusion_risk
  rw [htopo, hrep, hstakes]
  have hexp : Real.exp (-2) ≤ 1 / 2 := by
    have h2 : (2 : ℝ) ≤ Real.exp 2 := by
      have := Real.add_one_le_exp (2 : ℝ)
      linarith
    rw [Real.exp_neg]
    have : (2 : ℝ)⁻¹ = 1 / 2 := by norm_num
    rw [← this]
    exact inv_le_inv_of_le (by norm_num) h2
  have hrpow : (9.8 : ℝ) ≤ (9.8 : ℝ) ^ (1.5 : ℝ) := by
    calc (9.8 : ℝ) = (9.8 : ℝ) ^ (1 : ℝ) := (Real.rpow_one _).symm
    _ ≤ (9.8 : ℝ) ^ (1.5 : ℝ) :=
      Real.rpow_le_rpow_of_exponent_le (by norm_num) (by norm_num)
  nlinarith [hexp, hrpow]

/-- C6 (amended): the collusion risk lies in `[0,1]` provided the topology
weights and the stakes exponent are nonnegative, the stability constant is
positive, the discount factor is at most `1`, and the stakes are at most
`S_min + 1` — all satisfied by the default configuration with inputs
`delta, S ∈ [0,1]`.  For stakes above `S_min + 1` the power-law factor
exceeds `1` and so can the product. -/
theorem compute_collusion_risk_mem (M : ℤ) (G : NXGraph) (T : ℕ)
    (delta S : ℝ) (cfg : SimConfig)
    (hae : 0 ≤ cfg.alpha_edge) (hac : 0 ≤ cfg.alpha_clust)
    (hts : 0 < cfg.T_stab) (hgs : 0 ≤ cfg.gamma_stakes)
    (hdelta : delta ≤ 1) (hS : S ≤ cfg.S_min + 1) :
    0 ≤ compute_collusion_risk M G T delta S cfg ∧
    compute_collusion_risk M G T delta S cfg ≤ 1 := by
  obtain ⟨ht0, ht1⟩ := f_topology_mem G M cfg hae hac
  obtain ⟨hr0, hr1⟩ := f_repetition_mem T delta cfg hts hdelta
  obtain ⟨hs0, hs1⟩ := f_stakes_mem S cfg hgs hS
  unfold compute_collusion_risk
  constructor
  · exact mul_nonneg (mul_nonneg ht0 hr0) hs0
  · exact mul_le_one₀ (mul_le_one₀ ht1 hr0 hr1) hs0 hs1

/-- Witness for C6 (amended) at the default configuration,
`delta = 0.8`, `S = 0.5`. -/
theorem compute_collusion_risk_mem_witness :
    0 ≤ compute_collusion_risk 2 ⟨1, 0, le_refl 0, by norm_num⟩ 10 0.8 0.5 {} ∧
    compute_collusion_risk 2 ⟨1, 0, le_refl 0, by norm_num⟩ 10 0.8 0.5 {} ≤ 1 :=
  compute_collusion_risk_mem 2 ⟨1, 0, le_refl 0, by norm_num⟩ 10 0.8 0.5 {}
    (by norm_num) (by norm_num) (by norm_num) (by norm_num) (by norm_num) (by norm_num)

/-- Witness for C9 on a concrete series of length 3 with no `arch`. -/
theorem optimal_block_length_spec_witness :
    1 ≤ optimal_block_length [(1 : ℝ), 2, 3] none ∧
    optimal_block_length [(1 : ℝ), 2, 3] none = max 1 (([(1 : ℝ), 2, 3].length : ℤ) / 3) :=
  ⟨(optimal_block_length_spec [(1 : ℝ), 2, 3] none).1,
    (optimal_block_length_spec [(1 : ℝ), 2, 3] none).2.1 (by norm_num)⟩

/-- Membership in the `foldl (· ∪ ·)` union of a list of finsets. -/
theorem mem_foldl_union (sets : List (Finset ℕ)) (acc : Finset ℕ) (v : ℕ) :
    v ∈ sets.foldl (· ∪ ·) acc ↔ v ∈ acc ∨ ∃ s ∈ sets, v ∈ s := by
  induction sets generalizing acc with
  | nil => simp
  | cons s rest ih =>
    simp only [List.foldl_cons, ih, Finset.mem_union, List.mem_cons]
    constructor
    · rintro (⟨h | h⟩ | ⟨t, ht, hv⟩)
      · exact Or.inl h
      · exact Or.inr ⟨s, Or.inl rfl, h⟩
      · exact Or.inr ⟨t, Or.inr ht, hv⟩
    · rintro (h | ⟨t, rfl | ht, hv⟩)
      · exact Or.inl (Or.inl h)
      · exact Or.inl (Or.inr hv)
      · exact Or.inr ⟨t, ht, hv⟩

/-- Membership in `union_vote`. -/
theorem mem_union_vote (sets : List (Finset ℕ)) (v : ℕ) :
    v ∈ union_vote sets ↔ ∃ s ∈ sets, v ∈ s := by
  unfold union_vote
  rw [mem_foldl_union]
  simp

/-- Membership in the `foldl (· ∩ ·)` intersection of a list of finsets. -/
theorem mem_foldl_inter (sets : List (Finset ℕ)) (acc : Finset ℕ) (v : ℕ) :
    v ∈ sets.foldl (· ∩ ·) acc ↔ v ∈ acc ∧ ∀ s ∈ sets, v ∈ s := by
  induction sets generalizing acc with
  | nil => simp
  | cons s rest ih =>
    simp only [List.foldl_cons, ih, Finset.mem_inter, List.mem_cons]
    constructor
    · rintro ⟨⟨ha, hs⟩, hall⟩
      exact ⟨ha, fun t ht => ht.elim (fun h => h ▸ hs) (hall t)⟩
    · rintro ⟨ha, hall⟩
      exact ⟨⟨ha, hall s (Or.inl rfl)⟩, fun t ht => hall t (Or.inr ht)⟩

/-- A variant contained in every call set is counted once per caller. -/
theorem count_calls_eq_length (sets : List (Finset ℕ)) (v : ℕ)
    (h : ∀ s ∈ sets, v ∈ s) : count_calls sets v = sets.length := by
  unfold count_calls
  rw [List.filter_eq_self.mpr]
  intro s hs
  simpa using h s hs

/-- C10: the three ensemble voting operations are ordered by inclusion:
`intersection_vote ⊆ majority_vote` at the default threshold
`ceil(M/2)`, which in turn is `⊆ union_vote`. -/
theorem vote_inclusions (sets : List (Finset ℕ)) :
    intersection_vote sets ⊆ majority_vote sets (default_threshold sets) ∧
    majority_vote sets (default_threshold sets) ⊆ union_vote sets := by
  constructor
  · intro v hv
    cases sets with
    | nil => simp [intersection_vote] at hv
    | cons s rest =>
      have hall : v ∈ s ∧ ∀ t ∈ rest, v ∈ t := (mem_foldl_inter rest s v).mp hv
      have hmem : ∀ t ∈ s :: rest, v ∈ t := by
        intro t ht
        rcases List.mem_cons.mp ht with h | h
        · exact h ▸ hall.1
        · exact hall.2 t h
      unfold majority_vote
      rw [Finset.mem_filter]
      refine ⟨(mem_union_vote _ v).mpr ⟨s, List.mem_cons_self s rest, hall.1⟩, ?_⟩
      rw [count_calls_eq_length _ _ hmem]
      unfold default_threshold
      omega
  · intro v hv
    exact Finset.mem_of_mem_filter v hv

/-- Witness for C10 on concrete call sets (three callers). -/
theorem vote_inclusions_witness :
    intersection_vote [{1, 2}, {2, 3}, {2}]
      ⊆ majority_vote [{1, 2}, {2, 3}, {2}] (default_threshold [{1, 2}, {2, 3}, {2}]) ∧
    majority_vote [{1, 2}, {2, 3}, {2}] (default_threshold [{1, 2}, {2, 3}, {2}])
      ⊆ union_vote [{1, 2}, {2, 3}, {2}] :=
  vote_inclusions [{1, 2}, {2, 3}, {2}]

/-- The bootstrap distribution has exactly `n_bootstrap` entries. -/
theorem bootDist_length (series : List ℝ) (null_value : ℝ) (n_bootstrap : ℕ)
    (arch : Option ℝ) (starts : ℕ → ℕ → ℕ) :
    (bootDist series null_value n_bootstrap arch starts).length = n_bootstrap := by
  simp [bootDist, circular_block_bootstrap]

/-- The sum of the `0/1` indicator of `c ≤ x` over a list is the number of
entries that are at least `c`. -/
theorem sum_indicator_eq_countP (xs : List ℝ) (c : ℝ) :
    (xs.map fun x => if c ≤ x then (1 : ℝ) else 0).sum
      = (((xs.filter fun x => decide (c ≤ x)).length : ℕ) : ℝ) := by
  induction xs with
  | nil => simp
  | cons a l ih =>
    rw [List.map_cons, List.sum_cons, ih, List.filter_cons]
    by_cases h : c ≤ a
    · simp only [h, if_pos, decide_true_eq_true, decide_eq_true_eq, List.length_cons]
      push_cast
      ring
    · simp [h]

/-- C8: `bootstrap_one_sided_test` returns a `p_value` in `[0,1]` equal to
the fraction of bootstrap statistics that are at least the observed
statistic, and `reject_null` holds exactly when `p_value < alpha`. -/
theorem bootstrap_one_sided_test_spec (observed_stat : ℝ) (series : List ℝ)
    (null_value : ℝ) (n_bootstrap : ℕ) (alpha : ℝ)
    (hs : series ≠ []) (hn : 0 < n_bootstrap)
    (arch : Option ℝ) (starts : ℕ → ℕ → ℕ) :
    (bootstrap_one_sided_test observed_stat series null_value n_bootstrap alpha arch starts).2
      = (((bootDist series null_value n_bootstrap arch starts).filter
          fun x => decide (observed_stat ≤ x)).length : ℝ) / (n_bootstrap : ℝ) ∧
    0 ≤ (bootstrap_one_sided_test observed_stat series null_value n_bootstrap alpha arch starts).2 ∧
    (bootstrap_one_sided_test observed_stat series null_value n_bootstrap alpha arch starts).2 ≤ 1 ∧
    ((bootstrap_one_sided_test observed_stat series null_value n_bootstrap alpha arch starts).1 ↔
      (bootstrap_one_sided_test observed_stat series null_value n_bootstrap alpha arch starts).2
        < alpha) := by
  have hlen := bootDist_length series null_value n_bootstrap arch starts
  have hp : (bootstrap_one_sided_test observed_stat series null_value n_bootstrap alpha
      arch starts).2
      = (((bootDist series null_value n_bootstrap arch starts).filter
          fun x => decide (observed_stat ≤ x)).length : ℝ) / (n_bootstrap : ℝ) := by
    unfold bootstrap_one_sided_test
    simp only [sum_indicator_eq_countP, hlen]
  have hcount : ((bootDist series null_value n_bootstrap arch starts).filter
      fun x => decide (observed_stat ≤ x)).length ≤ n_bootstrap := by
    calc ((bootDist series null_value n_bootstrap arch starts).filter
        fun x => decide (observed_stat ≤ x)).length
        ≤ (bootDist series null_value n_bootstrap arch starts).length :=
          List.length_filter_le _ _
      _ = n_bootstrap := hlen
  have hnR : (0 : ℝ) < (n_bootstrap : ℝ) := by exact_mod_cast hn
  refine ⟨hp, ?_, ?_, ?_⟩
  · rw [hp]
    exact div_nonneg (Nat.cast_nonneg _) hnR.le
  · rw [hp]
    rw [div_le_one hnR]
    exact_mod_cast hcount
  · unfold bootstrap_one_sided_test
    exact Iff.rfl

/-- Witness for C8 on a concrete two-point series with one bootstrap
iteration. -/
theorem bootstrap_one_sided_test_spec_witness :
    (bootstrap_one_sided_test 0 [(1 : ℝ), 2] 0 1 0.05 none (fun _ _ => 0)).2
      = (((bootDist [(1 : ℝ), 2] 0 1 none (fun _ _ => 0)).filter
          fun x => decide ((0 : ℝ) ≤ x)).length : ℝ) / ((1 : ℕ) : ℝ) ∧
    0 ≤ (bootstrap_one_sided_test 0 [(1 : ℝ), 2] 0 1 0.05 none (fun _ _ => 0)).2 ∧
    (bootstrap_one_sided_test 0 [(1 : ℝ), 2] 0 1 0.05 none (fun _ _ => 0)).2 ≤ 1 ∧
    ((bootstrap_one_sided_test 0 [(1 : ℝ), 2] 0 1 0.05 none (fun _ _ => 0)).1 ↔
      (bootstrap_one_sided_test 0 [(1 : ℝ), 2] 0 1 0.05 none (fun _ _ => 0)).2 < 0.05) :=
  bootstrap_one_sided_test_spec 0 [(1 : ℝ), 2] 0 1 0.05 (by simp) (by norm_num) none
    (fun _ _ => 0)

/-- Unfolding: the loop does nothing on an empty range. -/
theorem argminLoop_nil (loss : ℕ → ℝ) (acc : ℕ × Option ℝ) :
    argminLoop loss [] acc = acc := rfl

/-- Unfolding: the first iteration always replaces the infinite initial
best loss. -/
theorem argminLoop_cons_none (loss : ℕ → ℝ) (M : ℕ) (rest : List ℕ) (a : ℕ) :
    argminLoop loss (M :: rest) (a, none) = argminLoop loss rest (M, some (loss M)) := rfl

/-- Unfolding: a later iteration updates the accumulator exactly when its
loss is strictly smaller. -/
theorem argminLoop_cons_some (loss : ℕ → ℝ) (M : ℕ) (rest : List ℕ) (a : ℕ) (b : ℝ) :
    argminLoop loss (M :: rest) (a, some b)
      = if loss M < b then argminLoop loss rest (M, some (loss M))
        else argminLoop loss rest (a, some b) := rfl

/-- The selected index stays within any bounds containing the accumulator
and every candidate. -/
theorem argminLoop_fst_bounds (loss : ℕ → ℝ) (Ms : List ℕ) (acc : ℕ × Option ℝ)
    (lo hi : ℕ) (hacc : lo ≤ acc.1 ∧ acc.1 ≤ hi)
    (hMs : ∀ x ∈ Ms, lo ≤ x ∧ x ≤ hi) :
    lo ≤ (argminLoop loss Ms acc).1 ∧ (argminLoop loss Ms acc).1 ≤ hi := by
  induction Ms generalizing acc with
  | nil => simpa [argminLoop_nil] using hacc
  | cons M rest ih =>
    have hM := hMs M (List.mem_cons_self _ _)
    have hrest : ∀ x ∈ rest, lo ≤ x ∧ x ≤ hi := fun x hx => hMs x (List.mem_cons_of_mem _ hx)
    rcases acc with ⟨a, ob⟩
    cases ob with
    | none =>
      rw [argminLoop_cons_none]
      exact ih (M, some (loss M)) hM hrest
    | some b =>
      rw [argminLoop_cons_some]
      split_ifs with h
      · exact ih (M, some (loss M)) hM hrest
      · exact ih (a, some b) hacc hrest

/-- C3 (amended): with `enforce_odd = True` and `M_min ≤ M_max`, the
returned size lies in `[M_min, M_max]` and is odd or equal to `M_max`:
the `min(best_M + 1, M_max)` cap can return an even `M_max` not only when
`M_min == M_max` is even but whenever the selected minimizer is an even
`M_max`. -/
theorem optimize_ensemble_size_spec (gen : ℕ → ℝ → NXGraph)
    (E S rho_bar p : ℝ) (T : ℕ) (delta : ℝ) (cfg : SimConfig) (sigma2 : ℝ)
    (h : cfg.M_min ≤ cfg.M_max) :
    cfg.M_min ≤ optimize_ensemble_size gen E S rho_bar p T delta cfg sigma2 true ∧
    optimize_ensemble_size gen E S rho_bar p T delta cfg sigma2 true ≤ cfg.M_max ∧
    (Odd (optimize_ensemble_size gen E S rho_bar p T delta cfg sigma2 true) ∨
      optimize_ensemble_size gen E S rho_bar p T delta cfg sigma2 true = cfg.M_max) := by
  have hbounds := argminLoop_fst_bounds
    (total_loss gen E S rho_bar p T delta cfg sigma2)
    (List.range' cfg.M_min (cfg.M_max + 1 - cfg.M_min))
    (cfg.M_min, none) cfg.M_min cfg.M_max ⟨le_refl _, h⟩
    (by
      intro x hx
      have hmem := List.mem_range'_1.mp hx
      omega)
  set best := (argminLoop (total_loss gen E S rho_bar p T delta cfg sigma2)
    (List.range' cfg.M_min (cfg.M_max + 1 - cfg.M_min)) (cfg.M_min, none)).1 with hbest
  have hresult : optimize_ensemble_size gen E S rho_bar p T delta cfg sigma2 true
      = if best % 2 == 0 then min (best + 1) cfg.M_max else best := by
    simp only [optimize_ensemble_size, Bool.true_and, ← hbest]
  rw [hresult]
  by_cases heven : best % 2 = 0
  · have : (best % 2 == 0) = true := by simp [heven]
    rw [this]
    simp only [if_pos]
    rcases le_or_lt (best + 1) cfg.M_max with hle | hlt
    · rw [min_eq_left hle]
      refine ⟨by omega, by omega, Or.inl ?_⟩
      rw [Nat.odd_iff]
      omega
    · rw [min_eq_right (by omega)]
      exact ⟨h, le_refl _, Or.inr rfl⟩
  · have : (best % 2 == 0) = false := by simp [heven]
    rw [this]
    simp only [Bool.false_eq_true, if_false]
    refine ⟨hbounds.1, hbounds.2, Or.inl ?_⟩
    rw [Nat.odd_iff]
    omega

/-- Witness for C3 (amended) at the default configuration and a constant
graph source. -/
theorem optimize_ensemble_size_spec_witness :
    ({} : SimConfig).M_min
      ≤ optimize_ensemble_size (fun _ _ => ⟨0, 0, le_refl 0, by norm_num⟩)
        0.5 0.5 0.3 0 10 0.7 {} 1 true ∧
    optimize_ensemble_size (fun _ _ => ⟨0, 0, le_refl 0, by norm_num⟩)
        0.5 0.5 0.3 0 10 0.7 {} 1 true ≤ ({} : SimConfig).M_max ∧
    (Odd (optimize_ensemble_size (fun _ _ => ⟨0, 0, le_refl 0, by norm_num⟩)
        0.5 0.5 0.3 0 10 0.7 {} 1 true) ∨
      optimize_ensemble_size (fun _ _ => ⟨0, 0, le_refl 0, by norm_num⟩)
        0.5 0.5 0.3 0 10 0.7 {} 1 true = ({} : SimConfig).M_max) :=
  optimize_ensemble_size_spec (fun _ _ => ⟨0, 0, le_refl 0, by norm_num⟩)
    0.5 0.5 0.3 0 10 0.7 {} 1 (by norm_num)

/-- `Modelled from the spec:` the optimizer's graph source is the external
`nx.erdos_renyi_graph(M, min(p, 0.99), seed=42)`; called with edge
probability `0` (the optimizer default `p = 0.0`) it deterministically
returns the graph on `M` nodes with no edges, whose average clustering
coefficient is `0`. -/
def empty_graph_gen : ℕ → ℝ → NXGraph := fun _ _ => ⟨0, 0, le_refl 0, by norm_num⟩

/-- A configuration with `M_min = 3 < 4 = M_max` and the cost, trust and
collusion weights zeroed, so that the loss is the strictly decreasing
`sigma2 / D_eff(M)` and the argmin is the even `M_max = 4`. -/
def cfgC3 : SimConfig :=
  { M_min := 3, M_max := 4, mu_cost := 0, nu_trust := 0, lambda_coll := 0 }

/-- At `M = 3` the loss is `1 / 2.1`. -/
theorem total_loss_cfgC3_at3 :
    total_loss empty_graph_gen 0.5 0.5 0.3 0 10 0.7 cfgC3 1 3 = 1 / 2.1 := by
  simp only [total_loss, L_error, L_cost, L_trust, L_coll, cfgC3, empty_graph_gen,
    effective_diversity, topology_discount]
  norm_num [max_def]

/-- At `M = 4` the loss is `1 / 2.8`. -/
theorem total_loss_cfgC3_at4 :
    total_loss empty_graph_gen 0.5 0.5 0.3 0 10 0.7 cfgC3 1 4 = 1 / 2.8 := by
  simp only [total_loss, L_error, L_cost, L_trust, L_coll, cfgC3, empty_graph_gen,
    effective_diversity, topology_discount]
  norm_num [max_def]

/-- C3 counterexample: with `M_min = 3 < 4 = M_max` (so not the claimed
`M_min == M_max` boundary exception) and `enforce_odd = True`, the search
selects the even `M_max = 4` and `min(4 + 1, 4) = 4` is returned: an even
value. -/
theorem optimize_ensemble_size_counterexample :
    optimize_ensemble_size empty_graph_gen 0.5 0.5 0.3 0 10 0.7 cfgC3 1 true = 4 ∧
    cfgC3.M_min = 3 ∧ cfgC3.M_max = 4 ∧ ¬ Odd 4 := by
  refine ⟨?_, rfl, rfl, by decide⟩
  have hlt : total_loss empty_graph_gen 0.5 0.5 0.3 0 10 0.7 cfgC3 1 4
      < total_loss empty_graph_gen 0.5 0.5 0.3 0 10 0.7 cfgC3 1 3 := by
    rw [total_loss_cfgC3_at3, total_loss_cfgC3_at4]
    norm_num
  have hrange : List.range' cfgC3.M_min (cfgC3.M_max + 1 - cfgC3.M_min) = [3, 4] := rfl
  have hloop : (argminLoop (total_loss empty_graph_gen 0.5 0.5 0.3 0 10 0.7 cfgC3 1)
      (List.range' cfgC3.M_min (cfgC3.M_max + 1 - cfgC3.M_min)) (cfgC3.M_min, none)).1
      = 4 := by
    rw [hrange]
    rw [show (cfgC3.M_min, (none : Option ℝ)) = (3, (none : Option ℝ)) from rfl]
    rw [argminLoop_cons_none, argminLoop_cons_some, if_pos hlt, argminLoop_nil]
  simp only [optimize_ensemble_size, Bool.true_and, hloop]
  rfl

/-- The pre-projection block matrix is Hermitian (symmetric). -/
theorem naive_isHermitian (sizes : List ℕ) (rhow rhob : ℝ) :
    (naive_block_matrix sizes rhow rhob).IsHermitian := by
  unfold Matrix.IsHermitian
  ext i j
  rw [Matrix.conjTranspose_apply, star_trivial]
  unfold naive_block_matrix
  rw [Matrix.of_apply, Matrix.of_apply]
  by_cases hij : i = j
  · subst hij
    simp
  · have hji : ¬ j = i := fun h => hij h.symm
    rw [if_neg hij, if_neg hji]
    by_cases hg : groupOf sizes (j : ℕ) = groupOf sizes (i : ℕ)
    · rw [if_pos hg, if_pos hg.symm]
    · rw [if_neg hg, if_neg (fun h => hg h.symm)]

/-- The matrix reconstructed from the clipped spectrum is positive
semi-definite with every diagonal entry at least the clip level `1e-6`. -/
theorem clipped_spectral_spec {n : ℕ} (A : Matrix (Fin n) (Fin n) ℝ) (hA : A.IsHermitian) :
    ((hA.eigenvectorUnitary : Matrix (Fin n) (Fin n) ℝ)
        * Matrix.diagonal (fun i => max (hA.eigenvalues i) 1e-6)
        * star (hA.eigenvectorUnitary : Matrix (Fin n) (Fin n) ℝ)).PosSemidef ∧
    ∀ i, (1e-6 : ℝ) ≤ ((hA.eigenvectorUnitary : Matrix (Fin n) (Fin n) ℝ)
        * Matrix.diagonal (fun i => max (hA.eigenvalues i) 1e-6)
        * star (hA.eigenvectorUnitary : Matrix (Fin n) (Fin n) ℝ)) i i := by
  set U : Matrix (Fin n) (Fin n) ℝ := (hA.eigenvectorUnitary : Matrix (Fin n) (Fin n) ℝ)
    with hU
  set lam : Fin n → ℝ := fun i => max (hA.eigenvalues i) 1e-6 with hlam
  constructor
  · have hd : (Matrix.diagonal lam).PosSemidef :=
      Matrix.posSemidef_diagonal_iff.mpr
        (fun i => le_trans (by norm_num) (le_max_right _ _))
    have hcongr := hd.mul_mul_conjTranspose_same U
    rwa [← Matrix.star_eq_conjTranspose] at hcongr
  · intro i
    have hentry : (U * Matrix.diagonal lam * star U) i i = ∑ k, lam k * U i k ^ 2 := by
      rw [Matrix.mul_apply]
      refine Finset.sum_congr rfl fun k _ => ?_
      rw [Matrix.mul_diagonal, Matrix.star_apply, star_trivial]
      ring
    have hU1 : U * star U = 1 :=
      Matrix.mem_unitaryGroup_iff.mp (hA.eigenvectorUnitary).2
    have hrow : ∑ k, U i k ^ 2 = 1 := by
      have h1 : (U * star U) i i = 1 := by rw [hU1, Matrix.one_apply_eq]
      rw [Matrix.mul_apply] at h1
      calc ∑ k, U i k ^ 2 = ∑ k, U i k * (star U) k i := by
            refine Finset.sum_congr rfl fun k _ => ?_
            rw [Matrix.star_apply, star_trivial]
            ring
        _ = 1 := h1
    rw [hentry]
    calc (1e-6 : ℝ) = 1e-6 * ∑ k, U i k ^ 2 := by rw [hrow]; ring
      _ = ∑ k, 1e-6 * U i k ^ 2 := Finset.mul_sum _ _ _
      _ ≤ ∑ k, lam k * U i k ^ 2 :=
        Finset.sum_le_sum fun k _ =>
          mul_le_mul_of_nonneg_right (le_max_right _ _) (sq_nonneg _)

/-- Rescaling a PSD matrix with positive diagonal by the inverse square
roots of its diagonal and forcing the diagonal to exactly `1` yields a
PSD, unit-diagonal, symmetric matrix (the diagonal is already exactly `1`
after the rescaling, so the forcing changes nothing). -/
theorem normalize_correlation_spec {n : ℕ} (B : Matrix (Fin n) (Fin n) ℝ)
    (hB : B.PosSemidef) (hdiag : ∀ i, 0 < B i i) :
    (Matrix.of fun i j =>
        if i = j then (1 : ℝ)
        else B i j / (Real.sqrt (B i i) * Real.sqrt (B j j))).PosSemidef ∧
    (∀ i, (Matrix.of fun i j : Fin n =>
        if i = j then (1 : ℝ)
        else B i j / (Real.sqrt (B i i) * Real.sqrt (B j j))) i i = 1) ∧
    (Matrix.of fun i j : Fin n =>
        if i = j then (1 : ℝ)
        else B i j / (Real.sqrt (B i i) * Real.sqrt (B j j))).IsSymm := by
  set e : Fin n → ℝ := fun i => (Real.sqrt (B i i))⁻¹ with he
  have hsq : ∀ i, Real.sqrt (B i i) * Real.sqrt (B i i) = B i i :=
    fun i => Real.mul_self_sqrt (hdiag i).le
  have hspos : ∀ i, 0 < Real.sqrt (B i i) := fun i => Real.sqrt_pos.mpr (hdiag i)
  have hCeq : (Matrix.of fun i j =>
      if i = j then (1 : ℝ) else B i j / (Real.sqrt (B i i) * Real.sqrt (B j j)))
      = Matrix.diagonal e * B * star (Matrix.diagonal e) := by
    have hstar : star (Matrix.diagonal e) = Matrix.diagonal e := by
      rw [Matrix.star_eq_conjTranspose, Matrix.diagonal_conjTranspose]
      congr 1
    rw [hstar]
    ext i j
    rw [Matrix.of_apply, Matrix.mul_diagonal, Matrix.diagonal_mul]
    by_cases hij : i = j
    · subst hij
      rw [if_pos rfl, he]
      field_simp
      rw [div_self (ne_of_gt (hspos i))]
    · rw [if_neg hij, he, div_eq_mul_inv, mul_inv]
      ring
  have hpsd : (Matrix.of fun i j =>
      if i = j then (1 : ℝ)
      else B i j / (Real.sqrt (B i i) * Real.sqrt (B j j))).PosSemidef := by
    rw [hCeq]
    have hcongr := hB.mul_mul_conjTranspose_same (Matrix.diagonal e)
    rwa [← Matrix.star_eq_conjTranspose] at hcongr
  refine ⟨hpsd, fun i => by rw [Matrix.of_apply, if_pos rfl], ?_⟩
  have hherm := hpsd.1
  unfold Matrix.IsSymm
  ext i j
  rw [Matrix.transpose_apply]
  have hentry := congrFun (congrFun hherm i) j
  rw [Matrix.conjTranspose_apply, star_trivial] at hentry
  exact hentry

/-- `psd_project` of a Hermitian matrix is PSD, unit-diagonal and
symmetric. -/
theorem psd_project_spec {n : ℕ} (A : Matrix (Fin n) (Fin n) ℝ) (hA : A.IsHermitian) :
    (psd_project A).PosSemidef ∧ (∀ i, psd_project A i i = 1) ∧
    (psd_project A).IsSymm := by
  obtain ⟨hpsdB, hdiagB⟩ := clipped_spectral_spec A hA
  have hdpos : ∀ i, 0 < ((hA.eigenvectorUnitary : Matrix (Fin n) (Fin n) ℝ)
      * Matrix.diagonal (fun i => max (hA.eigenvalues i) 1e-6)
      * star (hA.eigenvectorUnitary : Matrix (Fin n) (Fin n) ℝ)) i i :=
    fun i => lt_of_lt_of_le (by norm_num) (hdiagB i)
  obtain ⟨h1, h2, h3⟩ := normalize_correlation_spec _ hpsdB hdpos
  have hproj : psd_project A = Matrix.of fun i j =>
      if i = j then (1 : ℝ)
      else ((hA.eigenvectorUnitary : Matrix (Fin n) (Fin n) ℝ)
            * Matrix.diagonal (fun i => max (hA.eigenvalues i) 1e-6)
            * star (hA.eigenvectorUnitary : Matrix (Fin n) (Fin n) ℝ)) i j
        / (Real.sqrt (((hA.eigenvectorUnitary : Matrix (Fin n) (Fin n) ℝ)
            * Matrix.diagonal (fun i => max (hA.eigenvalues i) 1e-6)
            * star (hA.eigenvectorUnitary : Matrix (Fin n) (Fin n) ℝ)) i i)
          * Real.sqrt (((hA.eigenvectorUnitary : Matrix (Fin n) (Fin n) ℝ)
            * Matrix.diagonal (fun i => max (hA.eigenvalues i) 1e-6)
            * star (hA.eigenvectorUnitary : Matrix (Fin n) (Fin n) ℝ)) j j)) := by
    unfold psd_project
    rw [dif_pos hA]
  rw [hproj]
  exact ⟨h1, h2, h3⟩

/-- C1: `build_block_correlation_matrix` returns, for every list of group
sizes and every within-group and between-group correlation value (including
degenerate single-group and near-boundary inputs), a matrix that is
symmetric, has every diagonal entry exactly `1`, and is positive
semi-definite. -/
theorem build_block_correlation_matrix_valid (family_sizes : List ℕ)
    (rho_within rho_between : ℝ) :
    (build_block_correlation_matrix family_sizes rho_within rho_between).IsSymm ∧
    (∀ i, build_block_correlation_matrix family_sizes rho_within rho_between i i = 1) ∧
    (build_block_correlation_matrix family_sizes rho_within rho_between).PosSemidef := by
  unfold build_block_correlation_matrix
  obtain ⟨h1, h2, h3⟩ :=
    psd_project_spec _ (naive_isHermitian family_sizes rho_within rho_between)
  exact ⟨h3, h2, h1⟩

end Sanhedrin
